import Mathlib

/-!
Verification of the Base-Han streaming transcoder (src/basehan/v1.rs).

The embedding below is a direct translation of the Rust source.  Machine
integers are modelled as `Nat` with explicit reduction modulo `2 ^ 32`
where the Rust `u32` arithmetic can wrap, and `% 256` models the `as u8`
casts.  The two panics in the encoder path (the `nbits >= 13` arm of
`BitCache13::fill` and the `expect` on `char::from_u32`) are modelled by
`Option`: `none` is a panic.  Characters are represented by their Unicode
scalar values as `Nat`.
-/

/-- Modelled from the spec: the constant `BASE_OFFSET` is defined in
`src/basehan/mod.rs`, which is not part of the available sources.  The spec
maps a 13-bit symbol `v` bijectively to the code point `v + ALPHABET_BASE`
and requires `END_BASE` (`0x6e00`) to be strictly greater than
`ALPHABET_BASE + 8191`; the doc comment on `BitCache13::dump` places the
terminal range at `0x6e00..0x7e00`, so the ordinary range is the CJK block
`0x4e00..0x6dff` and `BASE_OFFSET = 0x4e00`. -/
def BASE_OFFSET : Nat := 0x4E00

/-- `const ENDING_OFFSET: u32 = 0x6e00;` -/
def ENDING_OFFSET : Nat := 0x6E00

/-- The modulus of Rust `u32` arithmetic. -/
def U32 : Nat := 4294967296

/-- Wrapping `u32` subtraction, as performed by `c -= ENDING_OFFSET` and
`c -= BASE_OFFSET` in release mode. -/
def wsub32 (a b : Nat) : Nat := (a % U32 + (U32 - b % U32)) % U32

/-- The domain on which `char::from_u32` succeeds: Unicode scalar values. -/
def isScalar (n : Nat) : Prop := n < 55296 ∨ (57344 ≤ n ∧ n < 1114112)

instance (n : Nat) : Decidable (isScalar n) :=
  inferInstanceAs (Decidable (_ ∨ _))

/-- `struct BitCache13 { inner: u32, nbits: usize }` -/
structure BitCache13 where
  inner : Nat
  nbits : Nat
deriving DecidableEq

/-- `BitCache13::default()` -/
def BitCache13.default : BitCache13 := ⟨0, 0⟩

/-- `BitCache13::fill`:  push one byte; emit a code point once 13 bits have
accumulated.  `none` models the two panics (the `13..` arm and the `expect`
on `char::from_u32`); otherwise the result is the optional output code point
together with the updated cache. -/
def BitCache13.fill (c : BitCache13) (byte : Nat) : Option (Option Nat × BitCache13) :=
  let b := byte % 256
  let remain_bits := (c.nbits + 8) % 13
  if c.nbits ≤ 4 then
    some (none, ⟨((c.inner <<< 8) % U32) ||| b, (c.nbits + 8) % 13⟩)
  else if c.nbits ≤ 12 then
    let inner := ((c.inner <<< 8) % U32) ||| b
    let out := inner >>> ((c.nbits + 8) % 13)
    if isScalar (out + BASE_OFFSET) then
      some (some (out + BASE_OFFSET), ⟨inner &&& ((1 <<< remain_bits) - 1), (c.nbits + 8) % 13⟩)
    else none
  else none

/-- `BitCache13::dump`: the terminal code point `inner + ENDING_OFFSET`;
`none` models the `expect` on `char::from_u32`. -/
def BitCache13.dump (c : BitCache13) : Option Nat :=
  if isScalar (c.inner + ENDING_OFFSET) then some (c.inner + ENDING_OFFSET) else none

/-- `struct BaseHanEncoder { buf_out: Vec<char>, remainings: BitCache13 }` -/
structure BaseHanEncoder where
  buf_out : List Nat
  remainings : BitCache13
deriving DecidableEq

/-- `BaseHanEncoder::new()` -/
def BaseHanEncoder.new : BaseHanEncoder := ⟨[], BitCache13.default⟩

/-- The `for` loop of `BaseHanEncoder::update`: feed every byte of the chunk
to the bit cache, appending each produced code point to `buf_out`. -/
def BaseHanEncoder.updateGo : List Nat → BaseHanEncoder → Option BaseHanEncoder
  | [], e => some e
  | byte :: rest, e =>
    match e.remainings.fill byte with
    | none => none
    | some (o, c) => BaseHanEncoder.updateGo rest ⟨e.buf_out ++ o.toList, c⟩

/-- `BaseHanEncoder::update`: run the loop, then drain `buf_out`
(`std::mem::replace` with a fresh vector) and return the drained output. -/
def BaseHanEncoder.update (chunk : List Nat) (e : BaseHanEncoder) :
    Option (List Nat × BaseHanEncoder) :=
  match BaseHanEncoder.updateGo chunk e with
  | none => none
  | some e2 => some (e2.buf_out, ⟨[], e2.remainings⟩)

/-- `BaseHanEncoder::finish`: dump the remaining bits as the terminal code
point. -/
def BaseHanEncoder.finish (e : BaseHanEncoder) : Option Nat :=
  e.remainings.dump

/-- `enum BaseHanError` (the payload of `IoError` is I/O-layer state outside
the core and is not modelled). -/
inductive BaseHanError where
  | IoError : BaseHanError
  | EndOfFile : BaseHanError
deriving DecidableEq

/-- `struct BitCache8 { inner: u32, nbits: usize }` -/
structure BitCache8 where
  inner : Nat
  nbits : Nat
deriving DecidableEq

/-- `BitCache8::default()` -/
def BitCache8.default : BitCache8 := ⟨0, 0⟩

/-- `BitCache8::fill`: push 13 bits; emit one byte (`Single`, when
`nbits <= 2`) or two bytes (`Double`, when `nbits >= 3`), returned here as a
list in emission order.  The `as u8` casts are `% 256`. -/
def BitCache8.fill (c : BitCache8) (bits : Nat) : List Nat × BitCache8 :=
  let remain_bits := (c.nbits + 13) % 8
  let inner := ((c.inner <<< 13) % U32) ||| (bits % U32)
  if c.nbits ≤ 2 then
    ([(inner >>> remain_bits) % 256],
     ⟨inner &&& ((1 <<< remain_bits) - 1), (c.nbits + 13) % 8⟩)
  else
    ([(inner >>> (remain_bits + 8)) % 256, (inner >>> remain_bits) % 256],
     ⟨inner &&& ((1 <<< remain_bits) - 1), (c.nbits + 13) % 8⟩)

/-- `BitCache8::dump`: the leftover byte, if the retained value is nonzero. -/
def BitCache8.dump (c : BitCache8) : Option Nat :=
  if c.inner ≠ 0 then some (c.inner % 256) else none

/-- `struct BaseHanDecoder { buf_out: Vec<u8>, remainings: BitCache8, eof: bool }` -/
structure BaseHanDecoder where
  buf_out : List Nat
  remainings : BitCache8
  eof : Bool
deriving DecidableEq

/-- `BaseHanDecoder::new()` -/
def BaseHanDecoder.new : BaseHanDecoder := ⟨[], BitCache8.default, false⟩

/-- The `for` loop of `BaseHanDecoder::update`: a scalar equal to 0 breaks
out of the loop; a terminal scalar (`c >= ENDING_OFFSET`) is rebased by the
wrapping subtraction of `ENDING_OFFSET`, left-shifted by `nbits + 5`, fed to
the cache, and breaks; an ordinary scalar is rebased by the wrapping
subtraction of `BASE_OFFSET` and fed to the cache. -/
def BaseHanDecoder.updateGo : List Nat → BaseHanDecoder → BaseHanDecoder
  | [], d => d
  | ch :: rest, d =>
    let c0 := ch % U32
    if c0 = 0 then d
    else
      let eof : Bool := decide (ENDING_OFFSET ≤ c0)
      let bits := if eof then (wsub32 c0 ENDING_OFFSET <<< (d.remainings.nbits + 5)) % U32
                  else wsub32 c0 BASE_OFFSET
      let r := d.remainings.fill bits
      let d2 : BaseHanDecoder := ⟨d.buf_out ++ r.1, r.2, eof⟩
      if eof then d2 else BaseHanDecoder.updateGo rest d2

/-- `BaseHanDecoder::update`: fail with `EndOfFile` when the decoder is
already closed, otherwise run the loop and drain `buf_out`. -/
def BaseHanDecoder.update (chunk : List Nat) (d : BaseHanDecoder) :
    Except BaseHanError (List Nat × BaseHanDecoder) :=
  if d.eof then .error .EndOfFile
  else
    let d2 := BaseHanDecoder.updateGo chunk d
    .ok (d2.buf_out, ⟨[], d2.remainings, d2.eof⟩)

/-- `BaseHanDecoder::finish`: dump the leftover byte, if any. -/
def BaseHanDecoder.finish (d : BaseHanDecoder) : Option Nat :=
  d.remainings.dump

/-- Whole-stream encoding, as composed by the v1 driver in main.rs: one
`update` over the full input from a fresh encoder, followed by the terminal
code point from `finish`. -/
def basehanEncode (B : List Nat) : Option (List Nat) :=
  match BaseHanEncoder.update B BaseHanEncoder.new with
  | none => none
  | some (out, e) =>
    match e.finish with
    | none => none
    | some t => some (out ++ [t])

/-- Whole-stream decoding: one `update` over the full stream from a fresh
decoder, paired with the leftover byte reported by `finish`. -/
def basehanDecode (S : List Nat) : Except BaseHanError (List Nat × Option Nat) :=
  match BaseHanDecoder.update S BaseHanDecoder.new with
  | .error e => .error e
  | .ok (out, d) => .ok (out, d.finish)

/-- Feeding consecutive sub-chunks to `BaseHanEncoder.update` one call at a
time, concatenating the outputs of the calls. -/
def encFeed : List (List Nat) → BaseHanEncoder → Option (List Nat × BaseHanEncoder)
  | [], e => some ([], e)
  | c :: cs, e =>
    match BaseHanEncoder.update c e with
    | none => none
    | some (o, e2) =>
      match encFeed cs e2 with
      | none => none
      | some (os, e3) => some (o ++ os, e3)

/-! ## Arithmetic helper lemmas -/

lemma U32_eq : U32 = 2 ^ 32 := by norm_num [U32]

lemma shl_lt {v n : Nat} (k : Nat) (hv : v < 2 ^ n) : v <<< k < 2 ^ (n + k) := by
  rw [Nat.shiftLeft_eq, Nat.pow_add]
  exact Nat.mul_lt_mul_of_lt_of_le hv (Nat.le_refl _) (Nat.two_pow_pos k)

lemma shl_or_lt {v b n k : Nat} (hv : v < 2 ^ n) (hb : b < 2 ^ k) :
    (v <<< k) ||| b < 2 ^ (n + k) :=
  Nat.or_lt_two_pow (shl_lt k hv)
    (lt_of_lt_of_le hb (Nat.pow_le_pow_right (by norm_num) (Nat.le_add_left k n)))

lemma shr_lt {x k m : Nat} (h : x < 2 ^ (m + k)) : x >>> k < 2 ^ m := by
  rw [Nat.shiftRight_eq_div_pow]
  exact Nat.div_lt_of_lt_mul (by rwa [← Nat.pow_add, Nat.add_comm k m])

lemma mask_lt (x r : Nat) : x &&& ((1 <<< r) - 1) < 2 ^ r :=
  lt_of_le_of_lt Nat.and_le_right (by rw [Nat.one_shiftLeft]; exact Nat.sub_lt (Nat.two_pow_pos r) Nat.one_pos)

lemma mask_eq (x r : Nat) : x &&& ((1 <<< r) - 1) = x % 2 ^ r := by
  rw [Nat.one_shiftLeft, Nat.and_pow_two_sub_one_eq_mod]

/-! ## Characterization of the bit-cache operations -/

/-- The not-yet-full arm of `BitCache13::fill` (before-state count at most 4). -/
lemma BitCache13.fill_below13 {v n : Nat} (b : Nat) (hn : n + 8 < 13) (hv : v < 2 ^ n) :
    BitCache13.fill ⟨v, n⟩ b = some (none, ⟨(v <<< 8) ||| (b % 256), n + 8⟩) := by
  have h4 : n ≤ 4 := by omega
  have hsh : (v <<< 8) % U32 = v <<< 8 := by
    rw [U32_eq]
    exact Nat.mod_eq_of_lt (lt_of_lt_of_le (shl_lt 8 hv)
      (Nat.pow_le_pow_right (by norm_num) (by omega)))
  simp only [BitCache13.fill, h4, if_pos, hsh]
  have : (n + 8) % 13 = n + 8 := Nat.mod_eq_of_lt hn
  rw [this]

/-- The emitting arm of `BitCache13::fill` (before-state count 5 to 12):
the emitted code point is the top 13 accumulated bits plus `BASE_OFFSET`,
the cache retains the low `n + 8 - 13` bits, and the new count is
`n + 8 - 13`. -/
lemma BitCache13.fill_atLeast13 {v n : Nat} (b : Nat) (h13 : 13 ≤ n + 8) (hn : n ≤ 12)
    (hv : v < 2 ^ n) :
    BitCache13.fill ⟨v, n⟩ b =
      some (some ((((v <<< 8) ||| (b % 256)) >>> (n + 8 - 13)) + BASE_OFFSET),
        ⟨((v <<< 8) ||| (b % 256)) &&& ((1 <<< (n + 8 - 13)) - 1), n + 8 - 13⟩) := by
  have h5 : ¬ n ≤ 4 := by omega
  have hsh : (v <<< 8) % U32 = v <<< 8 := by
    rw [U32_eq]
    exact Nat.mod_eq_of_lt (lt_of_lt_of_le (shl_lt 8 hv)
      (Nat.pow_le_pow_right (by norm_num) (by omega)))
  have hmod : (n + 8) % 13 = n + 8 - 13 := by omega
  have hor : (v <<< 8) ||| (b % 256) < 2 ^ (n + 8) :=
    shl_or_lt hv (Nat.mod_lt b (by norm_num))
  have hout : ((v <<< 8) ||| (b % 256)) >>> (n + 8 - 13) < 2 ^ 13 := by
    apply shr_lt
    have : 13 + (n + 8 - 13) = n + 8 := by omega
    rwa [this]
  have hscal : isScalar ((((v <<< 8) ||| (b % 256)) >>> (n + 8 - 13)) + BASE_OFFSET) := by
    left
    have : (2 : Nat) ^ 13 = 8192 := by norm_num
    rw [this] at hout
    unfold BASE_OFFSET
    omega
  simp only [BitCache13.fill, h5, if_neg, if_pos, hn, hsh, hmod, hscal, not_false_iff]

/-- `BitCache8::fill`, both arms, for an arbitrary before-state and arbitrary
pushed bits: the new count is `(n + 13) % 8` and the retained value is the
low `(n + 13) % 8` bits of the accumulated value. -/
lemma BitCache8.fill_snd (c : BitCache8) (bits : Nat) :
    ((c.fill bits).2.nbits = (c.nbits + 13) % 8) ∧
      (c.fill bits).2.inner < 2 ^ ((c.nbits + 13) % 8) := by
  simp only [BitCache8.fill]
  split
  · exact ⟨rfl, mask_lt _ _⟩
  · exact ⟨rfl, mask_lt _ _⟩

/-- The `Single` arm of `BitCache8::fill` (before-state count at most 2),
for a genuine 13-bit symbol: one byte is emitted, namely the accumulated
value shifted right by `n + 5`; the cache retains the low `n + 5` bits. -/
lemma BitCache8.fill_single {v n : Nat} (s : Nat) (hn : n ≤ 2) (hv : v < 2 ^ n)
    (hs : s < 2 ^ 13) :
    BitCache8.fill ⟨v, n⟩ s =
      ([((v <<< 13) ||| s) >>> (n + 5)],
        ⟨((v <<< 13) ||| s) &&& ((1 <<< (n + 5)) - 1), n + 5⟩) := by
  have hsmod : s % U32 = s := by
    rw [U32_eq]; exact Nat.mod_eq_of_lt (lt_trans hs (by norm_num))
  have hsh : (v <<< 13) % U32 = v <<< 13 := by
    rw [U32_eq]
    exact Nat.mod_eq_of_lt (lt_of_lt_of_le (shl_lt 13 hv)
      (Nat.pow_le_pow_right (by norm_num) (by omega)))
  have hmod : (n + 13) % 8 = n + 5 := by omega
  have hor : (v <<< 13) ||| s < 2 ^ (n + 13) := shl_or_lt hv hs
  have hbyte : ((v <<< 13) ||| s) >>> (n + 5) < 2 ^ 8 := by
    apply shr_lt
    have : 8 + (n + 5) = n + 13 := by omega
    rwa [this]
  have h256 : (((v <<< 13) ||| s) >>> (n + 5)) % 256 = ((v <<< 13) ||| s) >>> (n + 5) :=
    Nat.mod_eq_of_lt (lt_of_lt_of_le hbyte (by norm_num))
  simp only [BitCache8.fill, hn, if_pos, hsh, hsmod, hmod, h256]

/-- The `Double` arm of `BitCache8::fill` (before-state count 3 to 7), for a
genuine 13-bit symbol: two bytes are emitted, the top 8 accumulated bits and
the 8 bits immediately below them; the cache retains the low `n - 3` bits. -/
lemma BitCache8.fill_double {v n : Nat} (s : Nat) (h3 : 3 ≤ n) (hn : n ≤ 7)
    (hv : v < 2 ^ n) (hs : s < 2 ^ 13) :
    BitCache8.fill ⟨v, n⟩ s =
      ([((v <<< 13) ||| s) >>> (n + 5), (((v <<< 13) ||| s) >>> (n - 3)) % 256],
        ⟨((v <<< 13) ||| s) &&& ((1 <<< (n - 3)) - 1), n - 3⟩) := by
  have h2 : ¬ n ≤ 2 := by omega
  have hsmod : s % U32 = s := by
    rw [U32_eq]; exact Nat.mod_eq_of_lt (lt_trans hs (by norm_num))
  have hsh : (v <<< 13) % U32 = v <<< 13 := by
    rw [U32_eq]
    exact Nat.mod_eq_of_lt (lt_of_lt_of_le (shl_lt 13 hv)
      (Nat.pow_le_pow_right (by norm_num) (by omega)))
  have hmod : (n + 13) % 8 = n - 3 := by omega
  have hor : (v <<< 13) ||| s < 2 ^ (n + 13) := shl_or_lt hv hs
  have hbyte : ((v <<< 13) ||| s) >>> (n + 5) < 2 ^ 8 := by
    apply shr_lt
    have h8 : 8 + (n + 5) = n + 13 := by omega
    rwa [h8]
  have h256 : (((v <<< 13) ||| s) >>> (n + 5)) % 256 = ((v <<< 13) ||| s) >>> (n + 5) :=
    Nat.mod_eq_of_lt (lt_of_lt_of_le hbyte (by norm_num))
  have hshift : n - 3 + 8 = n + 5 := by omega
  simp only [BitCache8.fill, h2, if_neg, not_false_iff, hsh, hsmod, hmod, hshift, h256]

/-! ## Encoder run lemmas -/

/-- One `BitCache13::fill` step preserves the bit-buffer invariant and never
panics: from a state with `nbits ≤ 12` and `inner < 2 ^ nbits`, the call
succeeds and the new state again satisfies the invariant. -/
lemma BitCache13.fill_inv {v n : Nat} (b : Nat) (hn : n ≤ 12) (hv : v < 2 ^ n) :
    ∃ o c2, BitCache13.fill ⟨v, n⟩ b = some (o, c2) ∧
      c2.nbits ≤ 12 ∧ c2.inner < 2 ^ c2.nbits := by
  by_cases h : n + 8 < 13
  · refine ⟨none, _, BitCache13.fill_below13 b h hv, ?_, ?_⟩
    · show n + 8 ≤ 12; omega
    · exact shl_or_lt hv (Nat.mod_lt b (by norm_num))
  · refine ⟨_, _, BitCache13.fill_atLeast13 b (by omega) hn hv, ?_, ?_⟩
    · show n + 8 - 13 ≤ 12; omega
    · exact mask_lt _ _

/-- Shape analysis of a successful `BitCache13::fill` call on an arbitrary
state: either the not-yet-full arm ran (no output, count grows by 8) or the
emitting arm ran (one output, count shrinks by 5). -/
lemma BitCache13.fill_cases (c : BitCache13) (b : Nat) {o : Option Nat} {c2 : BitCache13}
    (h : c.fill b = some (o, c2)) :
    (o = none ∧ c.nbits ≤ 4 ∧ c2.nbits = c.nbits + 8) ∨
      (o.isSome = true ∧ 5 ≤ c.nbits ∧ c.nbits ≤ 12 ∧ c2.nbits = c.nbits + 8 - 13) := by
  simp only [BitCache13.fill] at h
  split_ifs at h with h4 h12 hsc
  · simp only [Option.some.injEq, Prod.mk.injEq] at h
    obtain ⟨ho, hc⟩ := h
    left
    refine ⟨ho.symm, h4, ?_⟩
    rw [← hc]
    show (c.nbits + 8) % 13 = c.nbits + 8
    omega
  · simp only [Option.some.injEq, Prod.mk.injEq] at h
    obtain ⟨ho, hc⟩ := h
    right
    refine ⟨by rw [← ho]; rfl, by omega, h12, ?_⟩
    rw [← hc]
    show (c.nbits + 8) % 13 = c.nbits + 8 - 13
    omega

/-- Running the encoder loop from a state satisfying the bit-buffer
invariant succeeds and ends in a state satisfying the invariant. -/
lemma BaseHanEncoder.updateGo_inv (B : List Nat) :
    ∀ e : BaseHanEncoder, e.remainings.nbits ≤ 12 →
      e.remainings.inner < 2 ^ e.remainings.nbits →
      ∃ e2, BaseHanEncoder.updateGo B e = some e2 ∧
        e2.remainings.nbits ≤ 12 ∧ e2.remainings.inner < 2 ^ e2.remainings.nbits := by
  induction B with
  | nil => exact fun e hn hv => ⟨e, rfl, hn, hv⟩
  | cons b rest ih =>
    intro e hn hv
    obtain ⟨o, c2, hfill, hn2, hv2⟩ :=
      BitCache13.fill_inv (v := e.remainings.inner) (n := e.remainings.nbits) b hn hv
    obtain ⟨e2, hgo, h12, hlt⟩ := ih ⟨e.buf_out ++ o.toList, c2⟩ hn2 hv2
    refine ⟨e2, ?_, h12, hlt⟩
    simp only [BaseHanEncoder.updateGo]
    have : e.remainings = ⟨e.remainings.inner, e.remainings.nbits⟩ := rfl
    rw [this, hfill]
    exact hgo

/-- Bit conservation along the encoder loop: each successful step accounts
for exactly 8 input bits, as 13 bits per emitted symbol plus the change in
the leftover bit count. -/
lemma BaseHanEncoder.updateGo_bits (B : List Nat) :
    ∀ e e2 : BaseHanEncoder, BaseHanEncoder.updateGo B e = some e2 →
      13 * e2.buf_out.length + e2.remainings.nbits =
        13 * e.buf_out.length + e.remainings.nbits + 8 * B.length := by
  induction B with
  | nil =>
    intro e e2 h
    simp only [BaseHanEncoder.updateGo, Option.some.injEq] at h
    subst h
    simp
  | cons b rest ih =>
    intro e e2 h
    simp only [BaseHanEncoder.updateGo] at h
    rcases hfill : e.remainings.fill b with _ | ⟨o, c2⟩ <;> rw [hfill] at h
    · exact absurd h (by simp)
    · have step := ih _ _ h
      simp only [List.length_append] at step
      rcases BitCache13.fill_cases e.remainings b hfill with ⟨ho, _, hc⟩ | ⟨ho, h5, h12, hc⟩
      · subst ho
        simp only [Option.toList, List.length_nil, List.length_cons] at step ⊢
        omega
      · obtain ⟨x, hx⟩ := Option.isSome_iff_exists.mp ho
        subst hx
        simp only [Option.toList, List.length_cons, List.length_nil] at step ⊢
        omega

/-- The encoder loop over a concatenation is the composition of the loops. -/
lemma BaseHanEncoder.updateGo_append (l1 l2 : List Nat) :
    ∀ e : BaseHanEncoder, BaseHanEncoder.updateGo (l1 ++ l2) e =
      match BaseHanEncoder.updateGo l1 e with
      | none => none
      | some e2 => BaseHanEncoder.updateGo l2 e2 := by
  induction l1 with
  | nil => intro e; rfl
  | cons b rest ih =>
    intro e
    simp only [List.cons_append, BaseHanEncoder.updateGo]
    rcases e.remainings.fill b with _ | ⟨o, c⟩
    · rfl
    · exact ih _

/-- The loop only appends to `buf_out`: running from a state with a
populated buffer equals running from an emptied buffer and prefixing. -/
lemma BaseHanEncoder.updateGo_buf (l : List Nat) :
    ∀ (buf : List Nat) (c : BitCache13),
      BaseHanEncoder.updateGo l ⟨buf, c⟩ =
        (BaseHanEncoder.updateGo l ⟨[], c⟩).map fun e => ⟨buf ++ e.buf_out, e.remainings⟩ := by
  induction l with
  | nil => intro buf c; simp [BaseHanEncoder.updateGo]
  | cons b rest ih =>
    intro buf c
    simp only [BaseHanEncoder.updateGo]
    rcases c.fill b with _ | ⟨o, c2⟩
    · rfl
    · dsimp only
      simp only [List.nil_append]
      rw [ih (buf ++ o.toList) c2, ih o.toList c2]
      rcases BaseHanEncoder.updateGo rest ⟨[], c2⟩ with _ | e3
      · rfl
      · simp

/-- Feeding sub-chunks one `update` call at a time equals one `update` of
the concatenation, for any start state with a drained output buffer. -/
lemma encFeed_eq (chunks : List (List Nat)) :
    ∀ c : BitCache13, encFeed chunks ⟨[], c⟩ =
      BaseHanEncoder.update chunks.flatten ⟨[], c⟩ := by
  induction chunks with
  | nil => intro c; rfl
  | cons ch cs ih =>
    intro c
    have hjoin : (ch :: cs).flatten = ch ++ cs.flatten := rfl
    rw [hjoin]
    simp only [encFeed, BaseHanEncoder.update, BaseHanEncoder.updateGo_append]
    rcases hgo : BaseHanEncoder.updateGo ch ⟨[], c⟩ with _ | ⟨b1, c1⟩
    · rfl
    · dsimp only
      rw [ih c1]
      simp only [BaseHanEncoder.update]
      rw [BaseHanEncoder.updateGo_buf cs.flatten b1 c1]
      rcases BaseHanEncoder.updateGo cs.flatten ⟨[], c1⟩ with _ | e2
      · rfl
      · simp

/-! ## Decoder run lemmas -/

/-- Running the decoder loop over ordinary symbols only (scalars in the
ordinary alphabet range): the decoder stays open, the leftover bit count
advances by 13 per symbol modulo 8, and the retained value stays below
`2 ^ nbits`. -/
lemma BaseHanDecoder.updateGo_ord (cs : List Nat) :
    ∀ d : BaseHanDecoder, (∀ c ∈ cs, BASE_OFFSET ≤ c ∧ c < ENDING_OFFSET) →
      d.eof = false → d.remainings.nbits < 8 →
      d.remainings.inner < 2 ^ d.remainings.nbits →
      (BaseHanDecoder.updateGo cs d).eof = false ∧
        (BaseHanDecoder.updateGo cs d).remainings.nbits =
          (d.remainings.nbits + 13 * cs.length) % 8 ∧
        (BaseHanDecoder.updateGo cs d).remainings.inner <
          2 ^ ((d.remainings.nbits + 13 * cs.length) % 8) := by
  induction cs with
  | nil =>
    intro d _ heof hn8 hv
    refine ⟨heof, ?_, ?_⟩
    · simp only [BaseHanDecoder.updateGo, List.length_nil]
      omega
    · have h : (d.remainings.nbits + 13 * ([] : List Nat).length) % 8 =
          d.remainings.nbits := by simp; omega
      rw [h]
      exact hv
  | cons c rest ih =>
    intro d hcs heof hn8 hv
    obtain ⟨hlo, hhi⟩ := hcs c (List.mem_cons_self c rest)
    have hrange : c < U32 := lt_trans hhi (by norm_num [ENDING_OFFSET, U32])
    have hc0 : c % U32 = c := Nat.mod_eq_of_lt hrange
    have hne : c ≠ 0 := by unfold BASE_OFFSET at hlo; omega
    have hterm : ¬ ENDING_OFFSET ≤ c := by omega
    have hdec : decide (ENDING_OFFSET ≤ c) = false := decide_eq_false hterm
    rcases hfr : d.remainings.fill (wsub32 c BASE_OFFSET) with ⟨bytes, cache2⟩
    have hfill := BitCache8.fill_snd d.remainings (wsub32 c BASE_OFFSET)
    rw [hfr] at hfill
    dsimp only at hfill
    have step := ih ⟨d.buf_out ++ bytes, cache2, false⟩
      (fun x hx => hcs x (List.mem_cons_of_mem c hx)) rfl
      (by dsimp only; rw [hfill.1]; exact Nat.mod_lt _ (by norm_num))
      (by dsimp only; rw [hfill.1]; exact hfill.2)
    dsimp only at step
    simp only [BaseHanDecoder.updateGo, hc0, hne, hdec, if_false, ite_false,
      Bool.false_eq_true, not_false_iff, hfr, List.length_cons]
    refine ⟨step.1, ?_, ?_⟩
    · rw [step.2.1, hfill.1]
      omega
    · have h2 := step.2.2
      have heq : (cache2.nbits + 13 * rest.length) % 8 =
          (d.remainings.nbits + 13 * (rest.length + 1)) % 8 := by
        rw [hfill.1]; omega
      rw [heq] at h2
      exact h2

/-! ## Claim theorems -/

/-- Claim C1 claims that decoding the encoding of every byte sequence of
length 0 to 26 returns exactly the original bytes with no leftover byte.
The code violates this: this theorem evaluates the pipeline at the failing
inputs.  For the empty input the stream is just the terminal code point
`0x6e00` (28160) and decoding it yields the spurious byte sequence `[0]`;
for the two-byte input `[0, 0]` the stream is `[0x4e00, 0x6e00]` and
decoding yields `[0, 0, 0]`, a spurious trailing zero byte.  In both cases
the decoder finish reports no leftover. -/
theorem C1_roundtrip_fails :
    basehanEncode [] = some [28160] ∧
      basehanDecode [28160] = Except.ok ([0], none) ∧
      basehanEncode [0, 0] = some [19968, 28160] ∧
      basehanDecode [19968, 28160] = Except.ok ([0, 0, 0], none) :=
  ⟨by decide, rfl, by decide, rfl⟩

/-- Claim C2 counterexample: the claim demands a leftover byte from finish
whenever the consumed bit count at the truncation point is not a multiple
of 8.  The stream `[0x4e00, 0x6e00]` is the valid encoding of `[0, 0]`;
its proper prefix `[0x4e00]` leaves the decoder with 13 consumed bits
(13 % 8 ≠ 0), yet all five retained bits are zero and finish returns
`none`, not `some`. -/
theorem C2_counterexample :
    basehanEncode [0, 0] = some [19968, 28160] ∧
      BaseHanDecoder.update [19968] BaseHanDecoder.new =
        Except.ok ([0], ⟨[], ⟨0, 5⟩, false⟩) ∧
      BaseHanDecoder.finish ⟨[], ⟨0, 5⟩, false⟩ = none ∧
      13 % 8 ≠ 0 :=
  ⟨by decide, rfl, by decide, by decide⟩

/-- Claim C2, amended: after feeding a fresh decoder any sequence of
ordinary symbols (a well-formed prefix of a valid stream without the
terminal symbol), finish returns a leftover byte whenever the consumed bit
count `13 × k` is not a multiple of 8 AND the retained bits are not all
zero; when the bit count is a multiple of 8 the retained value is
necessarily zero and finish returns `none`. -/
theorem C2_truncation_detection (cs out : List Nat) (d2 : BaseHanDecoder)
    (hcs : ∀ c ∈ cs, BASE_OFFSET ≤ c ∧ c < ENDING_OFFSET)
    (h : BaseHanDecoder.update cs BaseHanDecoder.new = Except.ok (out, d2)) :
    d2.remainings.nbits = 13 * cs.length % 8 ∧
      d2.remainings.inner < 2 ^ (13 * cs.length % 8) ∧
      (13 * cs.length % 8 ≠ 0 → d2.remainings.inner ≠ 0 →
        d2.finish = some d2.remainings.inner) ∧
      (13 * cs.length % 8 = 0 → d2.finish = none) := by
  have hred : BaseHanDecoder.update cs BaseHanDecoder.new =
      Except.ok ((BaseHanDecoder.updateGo cs BaseHanDecoder.new).buf_out,
        ⟨[], (BaseHanDecoder.updateGo cs BaseHanDecoder.new).remainings,
          (BaseHanDecoder.updateGo cs BaseHanDecoder.new).eof⟩) := rfl
  rw [hred] at h
  simp only [Except.ok.injEq, Prod.mk.injEq] at h
  obtain ⟨-, hd2⟩ := h
  subst hd2
  have run := BaseHanDecoder.updateGo_ord cs BaseHanDecoder.new hcs rfl
    (by decide) (by decide)
  have hzero : BaseHanDecoder.new.remainings.nbits = 0 := rfl
  rw [hzero, Nat.zero_add] at run
  refine ⟨run.2.1, run.2.2, ?_, ?_⟩
  · intro _ h2
    show BitCache8.dump (BaseHanDecoder.updateGo cs BaseHanDecoder.new).remainings = _
    unfold BitCache8.dump
    rw [if_pos h2]
    have hlt : (BaseHanDecoder.updateGo cs BaseHanDecoder.new).remainings.inner < 256 :=
      lt_of_lt_of_le run.2.2
        (le_trans (Nat.pow_le_pow_right (by norm_num)
          (Nat.le_of_lt_succ (Nat.mod_lt _ (by norm_num)))) (by norm_num))
    rw [Nat.mod_eq_of_lt hlt]
  · intro h0
    have hz : (BaseHanDecoder.updateGo cs BaseHanDecoder.new).remainings.inner = 0 := by
      have hlt := run.2.2
      rw [h0] at hlt
      omega
    show BitCache8.dump (BaseHanDecoder.updateGo cs BaseHanDecoder.new).remainings = _
    unfold BitCache8.dump
    rw [if_neg (by rw [hz]; exact fun hcon => hcon rfl)]

/-- Witness for the amended claim C2, at the single ordinary symbol 19969
(symbol value 1): after it, 13 bits were consumed (13 % 8 = 5 ≠ 0), one
retained bit is set, and finish reports the leftover. -/
theorem C2_truncation_detection_witness :
    (⟨[], ⟨1, 5⟩, false⟩ : BaseHanDecoder).remainings.nbits = 13 * [19969].length % 8 ∧
      (⟨[], ⟨1, 5⟩, false⟩ : BaseHanDecoder).remainings.inner <
        2 ^ (13 * [19969].length % 8) ∧
      (13 * [19969].length % 8 ≠ 0 →
        (⟨[], ⟨1, 5⟩, false⟩ : BaseHanDecoder).remainings.inner ≠ 0 →
        BaseHanDecoder.finish ⟨[], ⟨1, 5⟩, false⟩ =
          some (⟨[], ⟨1, 5⟩, false⟩ : BaseHanDecoder).remainings.inner) ∧
      (13 * [19969].length % 8 = 0 →
        BaseHanDecoder.finish ⟨[], ⟨1, 5⟩, false⟩ = none) :=
  C2_truncation_detection [19969] [0] ⟨[], ⟨1, 5⟩, false⟩ (by decide) rfl

/-- Claim C3: for every BitPacker state with `count ≤ 12` and
`value < 2 ^ count` and every input byte, the push appends the 8 bits low;
with fewer than 13 accumulated bits no symbol is produced and the count
grows by 8; with at least 13 it emits exactly one symbol — the top 13
accumulated bits, i.e. the intermediate value shifted right by
`count + 8 - 13`, mapped to a code point by adding `BASE_OFFSET` — retains
only the low `count + 8 - 13` bits and sets the count to `count + 8 - 13`. -/
theorem C3_push_byte (v n b : Nat) (hn : n ≤ 12) (hv : v < 2 ^ n) (hb : b < 256) :
    (n + 8 < 13 →
      BitCache13.fill ⟨v, n⟩ b = some (none, ⟨(v <<< 8) ||| b, n + 8⟩)) ∧
    (13 ≤ n + 8 →
      BitCache13.fill ⟨v, n⟩ b =
        some (some ((((v <<< 8) ||| b) >>> (n + 8 - 13)) + BASE_OFFSET),
          ⟨((v <<< 8) ||| b) &&& (2 ^ (n + 8 - 13) - 1), n + 8 - 13⟩) ∧
      ((v <<< 8) ||| b) >>> (n + 8 - 13) < 2 ^ 13) := by
  have hbm : b % 256 = b := Nat.mod_eq_of_lt hb
  have hb8 : b < 2 ^ 8 := by simpa using hb
  constructor
  · intro h
    have heq := BitCache13.fill_below13 b h hv
    rwa [hbm] at heq
  · intro h
    have heq := BitCache13.fill_atLeast13 b h hn hv
    have hm : (1 <<< (n + 8 - 13)) - 1 = 2 ^ (n + 8 - 13) - 1 := by
      rw [Nat.one_shiftLeft]
    rw [hbm, hm] at heq
    refine ⟨heq, ?_⟩
    apply shr_lt
    have h13 : 13 + (n + 8 - 13) = n + 8 := by omega
    rw [h13]
    exact shl_or_lt hv hb8

/-- Witness for C3 at two concrete states: the non-emitting arm at
state (0, 0) with byte 7, and the emitting arm at state (1, 5) with
byte 2. -/
theorem C3_push_byte_witness :
    BitCache13.fill ⟨0, 0⟩ 7 = some (none, ⟨(0 <<< 8) ||| 7, 0 + 8⟩) ∧
      (BitCache13.fill ⟨1, 5⟩ 2 =
        some (some ((((1 <<< 8) ||| 2) >>> (5 + 8 - 13)) + BASE_OFFSET),
          ⟨((1 <<< 8) ||| 2) &&& (2 ^ (5 + 8 - 13) - 1), 5 + 8 - 13⟩) ∧
      ((1 <<< 8) ||| 2) >>> (5 + 8 - 13) < 2 ^ 13) :=
  ⟨(C3_push_byte 0 0 7 (by decide) (by decide) (by decide)).1 (by decide),
   (C3_push_byte 1 5 2 (by decide) (by decide) (by decide)).2 (by decide)⟩

/-- Claim C4: for every BitUnpacker state with `count ≤ 7` and
`value < 2 ^ count` and every 13-bit symbol, the push appends the 13 bits
low; with `count ≤ 2` it emits exactly one byte — the top 8 accumulated
bits, the value shifted right by `count + 13 - 8` — retains the low
`count + 5` bits and sets the count to `count + 5`; with `count ≥ 3` it
emits exactly two bytes — the top 8 bits, then the 8 bits immediately
below — retains the low `count - 3` bits and sets the count to
`count - 3`. -/
theorem C4_push_symbol (v n s : Nat) (hn : n ≤ 7) (hv : v < 2 ^ n) (hs : s < 2 ^ 13) :
    (n ≤ 2 →
      BitCache8.fill ⟨v, n⟩ s =
        ([((v <<< 13) ||| s) >>> (n + 13 - 8)],
          ⟨((v <<< 13) ||| s) &&& (2 ^ (n + 5) - 1), n + 5⟩) ∧
      ((v <<< 13) ||| s) >>> (n + 13 - 8) < 2 ^ 8) ∧
    (3 ≤ n →
      BitCache8.fill ⟨v, n⟩ s =
        ([((v <<< 13) ||| s) >>> (n + 5), (((v <<< 13) ||| s) >>> (n - 3)) % 2 ^ 8],
          ⟨((v <<< 13) ||| s) &&& (2 ^ (n - 3) - 1), n - 3⟩) ∧
      ((v <<< 13) ||| s) >>> (n + 5) < 2 ^ 8) := by
  have hbyte : ((v <<< 13) ||| s) >>> (n + 5) < 2 ^ 8 := by
    apply shr_lt
    have h8 : 8 + (n + 5) = n + 13 := by omega
    rw [h8]
    exact shl_or_lt hv hs
  constructor
  · intro h2
    have heq := BitCache8.fill_single s h2 hv hs
    have hm : (1 <<< (n + 5)) - 1 = 2 ^ (n + 5) - 1 := by rw [Nat.one_shiftLeft]
    rw [hm] at heq
    have h138 : n + 13 - 8 = n + 5 := by omega
    rw [h138]
    exact ⟨heq, hbyte⟩
  · intro h3
    have heq := BitCache8.fill_double s h3 hn hv hs
    have hm : (1 <<< (n - 3)) - 1 = 2 ^ (n - 3) - 1 := by rw [Nat.one_shiftLeft]
    have h256 : (256 : Nat) = 2 ^ 8 := by norm_num
    rw [hm, h256] at heq
    exact ⟨heq, hbyte⟩

/-- Witness for C4 at two concrete states: the single-byte arm at
state (1, 2) with symbol 4500, and the double-byte arm at state (5, 3)
with symbol 8191. -/
theorem C4_push_symbol_witness :
    (BitCache8.fill ⟨1, 2⟩ 4500 =
        ([((1 <<< 13) ||| 4500) >>> (2 + 13 - 8)],
          ⟨((1 <<< 13) ||| 4500) &&& (2 ^ (2 + 5) - 1), 2 + 5⟩) ∧
      ((1 <<< 13) ||| 4500) >>> (2 + 13 - 8) < 2 ^ 8) ∧
      (BitCache8.fill ⟨5, 3⟩ 8191 =
        ([((5 <<< 13) ||| 8191) >>> (3 + 5), (((5 <<< 13) ||| 8191) >>> (3 - 3)) % 2 ^ 8],
          ⟨((5 <<< 13) ||| 8191) &&& (2 ^ (3 - 3) - 1), 3 - 3⟩) ∧
      ((5 <<< 13) ||| 8191) >>> (3 + 5) < 2 ^ 8) :=
  ⟨(C4_push_symbol 1 2 4500 (by decide) (by decide) (by decide)).1 (by decide),
   (C4_push_symbol 5 3 8191 (by decide) (by decide) (by decide)).2 (by decide)⟩

/-- Claim C5: for every byte sequence fed to a fresh StreamEncoder in any
sequence of update calls, 13 times the number of ordinary symbols emitted
plus the final leftover bit count equals exactly 8 times the number of
input bytes. -/
theorem C5_bit_conservation (chunks : List (List Nat)) (out : List Nat)
    (e2 : BaseHanEncoder)
    (h : encFeed chunks BaseHanEncoder.new = some (out, e2)) :
    13 * out.length + e2.remainings.nbits = 8 * chunks.flatten.length := by
  have h2 : BaseHanEncoder.update chunks.flatten ⟨[], BitCache13.default⟩ =
      some (out, e2) := by
    rw [← encFeed_eq chunks BitCache13.default]
    exact h
  simp only [BaseHanEncoder.update] at h2
  rcases hgo : BaseHanEncoder.updateGo chunks.flatten ⟨[], BitCache13.default⟩ with _ | e3
  · rw [hgo] at h2; cases h2
  · rw [hgo] at h2
    simp only [Option.some.injEq, Prod.mk.injEq] at h2
    obtain ⟨hout, he2⟩ := h2
    have hbits := BaseHanEncoder.updateGo_bits chunks.flatten
      ⟨[], BitCache13.default⟩ e3 hgo
    subst hout
    have hrem : e2.remainings = e3.remainings := by rw [← he2]
    rw [hrem]
    have hd : BitCache13.default.nbits = 0 := rfl
    simpa [hd] using hbits

/-- Witness for C5: feeding the two single-byte chunks 171 and 205 emits
one symbol and leaves 3 bits, and 13 + 3 = 16 = 8 × 2. -/
theorem C5_bit_conservation_witness :
    13 * [25465].length + (⟨[], ⟨5, 3⟩⟩ : BaseHanEncoder).remainings.nbits =
      8 * ([[171], [205]] : List (List Nat)).flatten.length :=
  C5_bit_conservation [[171], [205]] [25465] ⟨[], ⟨5, 3⟩⟩ (by decide)

/-- Claim C6: a closed decoder (one that has observed a terminal symbol)
fails every further update call with the end-of-stream error before
consuming anything; in particular a decoder fed an ordinary symbol, then a
terminal symbol, fails its next update call with that error. -/
theorem C6_end_of_stream :
    (∀ (d : BaseHanDecoder) (chunk : List Nat), d.eof = true →
      BaseHanDecoder.update chunk d = Except.error BaseHanError.EndOfFile) ∧
    (∃ o1 d1 o2 d2,
      BaseHanDecoder.update [19973] BaseHanDecoder.new = Except.ok (o1, d1) ∧
        BaseHanDecoder.update [28163] d1 = Except.ok (o2, d2) ∧
        BaseHanDecoder.update [19968, 19969] d2 =
          Except.error BaseHanError.EndOfFile) := by
  constructor
  · intro d chunk h
    simp [BaseHanDecoder.update, h]
  · exact ⟨[0], ⟨[], ⟨5, 5⟩, false⟩, [43, 0], ⟨[], ⟨0, 2⟩, true⟩, rfl, rfl, rfl⟩

/-- Witness for C6: a concrete closed decoder rejects a further chunk. -/
theorem C6_end_of_stream_witness :
    BaseHanDecoder.update [19968] ⟨[], ⟨0, 0⟩, true⟩ =
      Except.error BaseHanError.EndOfFile :=
  C6_end_of_stream.1 ⟨[], ⟨0, 0⟩, true⟩ [19968] rfl

/-- Claim C7: both bit buffers satisfy their invariant after construction
and after every push: the encoder-side count stays at most 12 and the
decoder-side count at most 7, and in each buffer the stored value is
strictly below `2 ^ count`. -/
theorem C7_buffer_invariants :
    (BitCache13.default.nbits ≤ 12 ∧
      BitCache13.default.inner < 2 ^ BitCache13.default.nbits) ∧
    (∀ v n b, n ≤ 12 → v < 2 ^ n →
      ∃ o c2, BitCache13.fill ⟨v, n⟩ b = some (o, c2) ∧
        c2.nbits ≤ 12 ∧ c2.inner < 2 ^ c2.nbits) ∧
    (BitCache8.default.nbits ≤ 7 ∧
      BitCache8.default.inner < 2 ^ BitCache8.default.nbits) ∧
    (∀ v n bits, n ≤ 7 → v < 2 ^ n →
      ((⟨v, n⟩ : BitCache8).fill bits).2.nbits ≤ 7 ∧
        ((⟨v, n⟩ : BitCache8).fill bits).2.inner <
          2 ^ ((⟨v, n⟩ : BitCache8).fill bits).2.nbits) := by
  refine ⟨⟨by decide, by decide⟩, ?_, ⟨by decide, by decide⟩, ?_⟩
  · exact fun v n b hn hv => BitCache13.fill_inv b hn hv
  · intro v n bits _ _
    have h := BitCache8.fill_snd ⟨v, n⟩ bits
    have h1 : ((⟨v, n⟩ : BitCache8).fill bits).2.nbits = (n + 13) % 8 := h.1
    have h2 : ((⟨v, n⟩ : BitCache8).fill bits).2.inner < 2 ^ ((n + 13) % 8) := h.2
    refine ⟨?_, ?_⟩
    · rw [h1]; omega
    · rw [h1]; exact h2

/-- Witness for C7: the push-preservation components at concrete states. -/
theorem C7_buffer_invariants_witness :
    (∃ o c2, BitCache13.fill ⟨3, 2⟩ 9 = some (o, c2) ∧
      c2.nbits ≤ 12 ∧ c2.inner < 2 ^ c2.nbits) ∧
      (((⟨3, 4⟩ : BitCache8).fill 9999).2.nbits ≤ 7 ∧
        ((⟨3, 4⟩ : BitCache8).fill 9999).2.inner <
          2 ^ ((⟨3, 4⟩ : BitCache8).fill 9999).2.nbits) :=
  ⟨C7_buffer_invariants.2.1 3 2 9 (by decide) (by decide),
   C7_buffer_invariants.2.2.2 3 4 9999 (by decide) (by decide)⟩

/-- Claim C8: for every byte sequence and every way of splitting it into
consecutive sub-chunks, feeding the sub-chunks to update one call at a time
produces, in concatenation, exactly the same code points and the same final
state — hence the same finalize result — as feeding the whole sequence as
one chunk. -/
theorem C8_chunk_invariance (chunks : List (List Nat)) :
    encFeed chunks BaseHanEncoder.new =
      BaseHanEncoder.update chunks.flatten BaseHanEncoder.new ∧
    (encFeed chunks BaseHanEncoder.new).map (fun p => p.2.finish) =
      (BaseHanEncoder.update chunks.flatten BaseHanEncoder.new).map
        (fun p => p.2.finish) := by
  have h : encFeed chunks BaseHanEncoder.new =
      BaseHanEncoder.update chunks.flatten BaseHanEncoder.new :=
    encFeed_eq chunks BitCache13.default
  exact ⟨h, by rw [h]⟩

/-- Claim C9: starting from a fresh encoder, every sequence of pushed bytes
keeps the accumulated bit total below 21 and never reaches the fail-fast
arm (or the char-conversion panic): the whole run always succeeds, and the
leftover count stays small enough that the next push totals at most 20. -/
theorem C9_panic_unreachable (B : List Nat) :
    ∃ e2, BaseHanEncoder.updateGo B BaseHanEncoder.new = some e2 ∧
      e2.remainings.nbits + 8 < 21 := by
  obtain ⟨e2, hgo, h12, -⟩ :=
    BaseHanEncoder.updateGo_inv B BaseHanEncoder.new (by decide) (by decide)
  exact ⟨e2, hgo, by omega⟩

/-- Claim C10: the decoder performs no alphabet-membership validation.  For
every open decoder, a nonzero scalar strictly below `ENDING_OFFSET` is
consumed as an ordinary symbol via wrapping subtraction of `BASE_OFFSET`
(which wraps around `2 ^ 32` when the scalar is below `BASE_OFFSET`), and
any scalar at or above `ENDING_OFFSET` — with no upper check — is consumed
as a terminal symbol; in neither case does update return an error. -/
theorem C10_no_validation (d : BaseHanDecoder) (c : Nat) (hd : d.eof = false)
    (hc : c < 1114112) :
    (0 < c → c < ENDING_OFFSET →
      BaseHanDecoder.update [c] d =
        Except.ok (d.buf_out ++ (d.remainings.fill (wsub32 c BASE_OFFSET)).1,
          ⟨[], (d.remainings.fill (wsub32 c BASE_OFFSET)).2, false⟩)) ∧
    (ENDING_OFFSET ≤ c →
      BaseHanDecoder.update [c] d =
        Except.ok (d.buf_out ++
            (d.remainings.fill
              ((wsub32 c ENDING_OFFSET <<< (d.remainings.nbits + 5)) % U32)).1,
          ⟨[], (d.remainings.fill
              ((wsub32 c ENDING_OFFSET <<< (d.remainings.nbits + 5)) % U32)).2,
            true⟩)) ∧
    (c < BASE_OFFSET → wsub32 c BASE_OFFSET = U32 - BASE_OFFSET + c) := by
  have hrange : c < U32 := lt_of_lt_of_le hc (by norm_num [U32])
  have hc0 : c % U32 = c := Nat.mod_eq_of_lt hrange
  refine ⟨?_, ?_, ?_⟩
  · intro hpos hlt
    have hne : c ≠ 0 := by omega
    have hdec : decide (ENDING_OFFSET ≤ c) = false := decide_eq_false (by omega)
    simp only [BaseHanDecoder.update, hd, Bool.false_eq_true, if_false,
      BaseHanDecoder.updateGo, hc0, hne, hdec, ite_false, not_false_iff]
  · intro hge
    have hne : c ≠ 0 := by unfold ENDING_OFFSET at hge; omega
    have hdec : decide (ENDING_OFFSET ≤ c) = true := decide_eq_true hge
    simp only [BaseHanDecoder.update, hd, Bool.false_eq_true, if_false,
      BaseHanDecoder.updateGo, hc0, hne, hdec, ite_true, not_false_iff]
  · intro hlt
    unfold wsub32 U32 BASE_OFFSET
    unfold BASE_OFFSET at hlt
    omega

/-- Witness for C10: a fresh decoder accepts the scalar 1 (below the
alphabet base, wrapping subtraction) and the scalar 36864 (above the end of
the terminal range) without error. -/
theorem C10_no_validation_witness :
    BaseHanDecoder.update [1] BaseHanDecoder.new =
      Except.ok (BaseHanDecoder.new.buf_out ++
          (BaseHanDecoder.new.remainings.fill (wsub32 1 BASE_OFFSET)).1,
        ⟨[], (BaseHanDecoder.new.remainings.fill (wsub32 1 BASE_OFFSET)).2, false⟩) ∧
      BaseHanDecoder.update [36864] BaseHanDecoder.new =
        Except.ok (BaseHanDecoder.new.buf_out ++
            (BaseHanDecoder.new.remainings.fill
              ((wsub32 36864 ENDING_OFFSET <<<
                (BaseHanDecoder.new.remainings.nbits + 5)) % U32)).1,
          ⟨[], (BaseHanDecoder.new.remainings.fill
              ((wsub32 36864 ENDING_OFFSET <<<
                (BaseHanDecoder.new.remainings.nbits + 5)) % U32)).2, true⟩) :=
  ⟨(C10_no_validation BaseHanDecoder.new 1 rfl (by decide)).1 (by decide) (by decide),
   (C10_no_validation BaseHanDecoder.new 36864 rfl (by decide)).2.1 (by decide)⟩
